import Mathlib

/-!
Verification of the statistical summarization layer of src/plots.py
(hierarchical physics-model calibration plots).

Conventions of the shallow embedding:

* Data arrays are lists of rationals (the float data in the program is
  finite decimal data; rationals embed it exactly); 2-D arrays are lists
  of rows.
* The mcmc module (credible_interval, median of samples) is repository
  code that is not included under src/; it is modelled from the spec,
  which gives numpy percentile semantics (linear interpolation between
  order statistics).
* The floating-point semantics of numpy division (silently producing
  inf or NaN instead of raising) is modelled by the extended value type
  FVal below, which is a faithful model of IEEE-754 special values for
  the arithmetic appearing in the embedded formulas (signed zero is
  collapsed to fin 0; the distinction never arises in those formulas).
-/

namespace HicParamEst

/-! ## Spec-modelled order statistics (the mcmc collaborator module) -/

/-- Insert a value into an already sorted list, keeping it sorted.  Used to
model the order statistics underlying numpy percentile computations. -/
def insertSorted (x : ℚ) : List ℚ → List ℚ
  | [] => [x]
  | y :: ys => if x ≤ y then x :: y :: ys else y :: insertSorted x ys

/-- Insertion sort over rationals (the sorted sample array from which
empirical quantiles are read off). -/
def sortQ : List ℚ → List ℚ
  | [] => []
  | x :: xs => insertSorted x (sortQ xs)

/-- Modelled from the spec: the empirical quantile with linear interpolation
between order statistics (numpy percentile semantics used by the missing
mcmc module).  For n samples the quantile at fraction p interpolates
between the floor and ceiling rank positions of p*(n-1). -/
def quantileLinear (samples : List ℚ) (p : ℚ) : ℚ :=
  let s := sortQ samples
  let n : ℚ := (s.length : ℚ)
  let h : ℚ := p * (n - 1)
  let i : ℕ := (Int.floor h).toNat
  let lo := s.getD i 0
  let hi := s.getD (i + 1) lo
  lo + (h - ((Int.floor h : ℤ) : ℚ)) * (hi - lo)

/-- Modelled from the spec: credible_interval(samples, ci) of the missing
mcmc module returns the pair of empirical quantiles at (1-ci)/2 and
1-(1-ci)/2; the default confidence level is 0.9. -/
def credible_interval (samples : List ℚ) (ci : ℚ) : ℚ × ℚ :=
  (quantileLinear samples ((1 - ci) / 2), quantileLinear samples (1 - (1 - ci) / 2))

/-- Modelled from the spec: the sample median (numpy median), the empirical
quantile at fraction 1/2. -/
def medianQ (samples : List ℚ) : ℚ := quantileLinear samples (1/2)

/-- Arithmetic mean of a list of rationals (numpy mean); used only to state
that the regime representative is not the group mean. -/
def meanQ (l : List ℚ) : ℚ := l.sum / (l.length : ℚ)

/-! ## format_ci (src/plots.py lines 675-701) -/

/-- Display record produced by format_ci: a single decimal precision
together with the three numbers rendered at that precision. -/
structure CIDisplay where
  precision : ℕ
  median : ℚ
  lowErr : ℚ
  highErr : ℚ
  deriving DecidableEq, Repr

/-- Fixed-point rounding at p decimal digits, modelling the rendering of a
number by a format string of precision p (ties are rounded half-up, a
difference from float formatting only at exact ties). -/
def roundTo (p : ℕ) (q : ℚ) : ℚ := ((round (q * 10 ^ p) : ℤ) : ℚ) / 10 ^ p

/-- Embedding of format_ci (src/plots.py): compute the median and a credible
interval of the samples, choose one display precision from the magnitude of
the median and of the lower-side uncertainty, and render the median and
both one-sided uncertainties at that single precision. -/
def format_ci (samples : List ℚ) (ci : ℚ) : CIDisplay :=
  let cint := credible_interval samples ci
  let m := medianQ samples
  let ul := m - cint.1
  let uh := cint.2 - m
  let precision : ℕ :=
    if |m| < 1/5 ∧ ul < 1/50 then 3 else if |m| < 1 then 2 else 1
  { precision := precision
    median := roundTo precision m
    lowErr := roundTo precision ul
    highErr := roundTo precision uh }

/-! ## The bulk-viscosity regime representatives (_region_bulk, lines 970-1040) -/

/-- The pseudocritical temperature constant Tc = .154 from src/plots.py. -/
def Tc : ℚ := 154/1000

/-- Embedding of the zetas curve defined inside _region_bulk:
zetas_max / (1 + ((T - Tc)/zetas_width)^2). -/
def zetas (T zetas_max zetas_width : ℚ) : ℚ :=
  zetas_max / (1 + ((T - Tc) / zetas_width) ^ 2)

/-- Rows of the sample matrix assigned label n by the hard assignment of the
Gaussian mixture (samples[labels == n]). -/
def groupRows (samples : List (List ℚ)) (labels : List ℕ) (n : ℕ) : List (List ℚ) :=
  ((samples.zip labels).filter fun rl => rl.2 == n).map Prod.fst

/-- Column k of a list of rows (a per-parameter marginal of the group). -/
def columnQ (rows : List (List ℚ)) (k : ℕ) : List ℚ :=
  rows.map fun r => r.getD k 0

/-- Embedding of the per-component representative parameter in _region_bulk:
mcmc.credible_interval(s)[1] for each parameter marginal s of the rows of
component n, at the default confidence level 0.9. -/
def regionBulkParam (samples : List (List ℚ)) (labels : List ℕ) (n k : ℕ) : ℚ :=
  (credible_interval (columnQ (groupRows samples labels n) k) (9/10)).2

/-- Embedding of the representative curve drawn for component n: zetas
evaluated at the representative zetas_max (column 0) and zetas_width
(column 1). -/
def regionBulkCurve (samples : List (List ℚ)) (labels : List ℕ) (n : ℕ) (T : ℚ) : ℚ :=
  zetas T (regionBulkParam samples labels n 0) (regionBulkParam samples labels n 1)

/-! ## The PCA arrow canonicalization (pca, lines 1382-1384) -/

/-- Embedding of the direction canonicalization in pca (src/plots.py):
the vector p is negated exactly when np.all(p < 0), i.e. when every
component is strictly negative. -/
def pcaArrowCanon (p : List ℚ) : List ℚ :=
  if p.all fun x => decide (x < 0) then p.map fun x => -x else p

/-! ## Extended values: numpy float special-value semantics -/

/-- Extended value model of numpy float arithmetic: finite rationals plus
the two infinities and NaN.  Signed zero is collapsed to fin 0; the
distinction is never observable in the formulas embedded here. -/
inductive FVal
  | fin (q : ℚ)
  | inf
  | ninf
  | nan
  deriving DecidableEq, Repr

namespace FVal

/-- Negation of an extended value. -/
def fneg : FVal → FVal
  | fin q => fin (-q)
  | inf => ninf
  | ninf => inf
  | nan => nan

/-- Addition with IEEE-754 special-value rules: NaN propagates and opposite
infinities give NaN. -/
def fadd : FVal → FVal → FVal
  | nan, _ => nan
  | _, nan => nan
  | fin a, fin b => fin (a + b)
  | fin _, inf => inf
  | fin _, ninf => ninf
  | inf, fin _ => inf
  | inf, inf => inf
  | inf, ninf => nan
  | ninf, fin _ => ninf
  | ninf, inf => nan
  | ninf, ninf => ninf

/-- Subtraction, via addition of the negation (as in IEEE-754). -/
def fsub (x y : FVal) : FVal := fadd x (fneg y)

/-- Multiplication with IEEE-754 special-value rules: NaN propagates and
zero times an infinity gives NaN. -/
def fmul : FVal → FVal → FVal
  | nan, _ => nan
  | _, nan => nan
  | fin a, fin b => fin (a * b)
  | fin a, inf => if 0 < a then inf else if a < 0 then ninf else nan
  | fin a, ninf => if 0 < a then ninf else if a < 0 then inf else nan
  | inf, fin b => if 0 < b then inf else if b < 0 then ninf else nan
  | ninf, fin b => if 0 < b then ninf else if b < 0 then inf else nan
  | inf, inf => inf
  | inf, ninf => ninf
  | ninf, inf => ninf
  | ninf, ninf => inf

/-- Division with IEEE-754 special-value rules: a nonzero finite value
divided by zero gives a signed infinity, 0/0 gives NaN, an infinity
divided by an infinity gives NaN. -/
def fdiv : FVal → FVal → FVal
  | nan, _ => nan
  | _, nan => nan
  | fin a, fin b =>
      if b = 0 then (if 0 < a then inf else if a < 0 then ninf else nan)
      else fin (a / b)
  | fin _, inf => fin 0
  | fin _, ninf => fin 0
  | inf, fin b => if b < 0 then ninf else inf
  | ninf, fin b => if b < 0 then inf else ninf
  | inf, _ => nan
  | ninf, _ => nan

/-- Square (np.square), multiplication of a value by itself. -/
def fsq (x : FVal) : FVal := fmul x x

/-- Largest r at most k with r*r at most n (structural linear search,
kernel-reducible). -/
def natSqrtGo (n : ℕ) : ℕ → ℕ
  | 0 => 0
  | k + 1 => if (k + 1) * (k + 1) ≤ n then k + 1 else natSqrtGo n k

/-- Floor square root of a natural number: the largest r with r*r at most
n. -/
def natSqrt (n : ℕ) : ℕ := natSqrtGo n n

/-- Rational stand-in for the nonnegative branch of the square root: floor
square roots of numerator and denominator.  It is exact on perfect squares
and positive on positive inputs, which are the only properties this
development relies on. -/
def ratSqrt (q : ℚ) : ℚ := ((natSqrt q.num.toNat : ℤ) : ℚ) / ((natSqrt q.den : ℤ) : ℚ)

/-- Square root with IEEE-754 special-value rules: NaN on negative inputs
(including negative infinity), infinity on positive infinity. -/
def fsqrt : FVal → FVal
  | nan => nan
  | inf => inf
  | ninf => nan
  | fin a => if a < 0 then nan else fin (ratSqrt a)

/-- Sum of a list of extended values (numpy sum), folded from zero. -/
def fsum (l : List FVal) : FVal := l.foldl fadd (fin 0)

/-- Mean of a list of extended values (numpy mean): the sum divided by the
length; the empty mean is NaN, as in numpy. -/
def fmean (l : List FVal) : FVal := fdiv (fsum l) (fin (l.length : ℚ))

/-- Truth value recording that an extended value is not a finite number
(it is an infinity or NaN). -/
def notFinite : FVal → Bool
  | fin _ => false
  | _ => true

end FVal

/-! ## Surrogate validation (validation_all, lines 1539-1551) -/

/-- Number of observable channels of a 2-D data array: the length of its
first row. -/
def ncols (Y : List (List ℚ)) : ℕ := (Y.headD []).length

/-- Embedding of the normalized residuals Z = (Y_ - Y)/S_ of validation_all
(src/plots.py), where Y is the ground truth, Y_ the surrogate-predicted
mean and S_ the square root of the predicted variance (the diagonal of the
predicted covariance), all computed elementwise with numpy float
semantics. -/
def normalizedResiduals (Y Ym S2 : List (List ℚ)) : List (List FVal) :=
  ((Ym.zip Y).zip S2).map fun rr =>
    ((rr.1.1.zip rr.1.2).zip rr.2).map fun xy =>
      FVal.fdiv (FVal.fsub (FVal.fin xy.1.1) (FVal.fin xy.1.2)) (FVal.fsqrt (FVal.fin xy.2))

/-- Embedding of rms = 100*np.sqrt(np.square(Y_/Y - 1).mean(axis=0)) of
validation_all (src/plots.py): the per-channel RMS percent error, computed
with numpy float semantics (division by a zero ground-truth entry yields
an infinity or NaN, never an error). -/
def rmsPercentError (Y Ym : List (List ℚ)) : List FVal :=
  (List.range (ncols Y)).map fun j =>
    FVal.fmul (FVal.fin 100)
      (FVal.fsqrt (FVal.fmean ((Y.zip Ym).map fun r =>
        FVal.fsq (FVal.fsub
          (FVal.fdiv (FVal.fin (r.2.getD j 0)) (FVal.fin (r.1.getD j 0)))
          (FVal.fin 1)))))

/-! ## Residual-band quantile annotations (validation_all, lines 1568-1576) -/

/-- The sigma value the code attaches to a target normal quantile:
np.sqrt(2) * special.erfinv(2*q - 1), parametrized by the inverse error
function erfinv supplied by scipy. -/
noncomputable def sigmaOfQuantile (erfinv : ℝ → ℝ) (q : ℝ) : ℝ :=
  Real.sqrt 2 * erfinv (2 * q - 1)

/-- Embedding of the residual-band guide levels of validation_all
(src/plots.py): q, p = np.sqrt(2)*special.erfinv(2*np.array([.75,.90]) - 1)
and the yticks [-p, -q, 0, q, p] labelled with the normal quantiles
[10, 25, 50, 75, 90] (as fractions here). -/
noncomputable def validationSigmaTicks (erfinv : ℝ → ℝ) : List (ℝ × ℝ) :=
  let q := Real.sqrt 2 * erfinv (2 * (75/100) - 1)
  let p := Real.sqrt 2 * erfinv (2 * (90/100) - 1)
  [(-p, 10/100), (-q, 25/100), (0, 50/100), (q, 75/100), (p, 90/100)]

/-- Modelled from the spec: quantile_at_sigma(s) = 0.5*(1 + erf(s/sqrt2)),
the normal quantile reached at s predicted standard deviations,
parametrized by the error function erf. -/
noncomputable def quantile_at_sigma (erf : ℝ → ℝ) (s : ℝ) : ℝ :=
  (1 + erf (s / Real.sqrt 2)) / 2

/-! ## Experimental error bands of _observables (lines 315-333) -/

/-- Embedding of yerr = np.sqrt(sum(e**2 for e in dset[yerr-key].values()))
in _observables (src/plots.py): the elementwise quadrature sum of the
per-source error arrays, for bins of an x axis of length n. -/
noncomputable def totalYerr (n : ℕ) (sources : List (List ℚ)) : List ℝ :=
  (sources.foldl
      (fun acc e => List.zipWith (· + ·) acc (e.map fun v => v ^ 2))
      (List.replicate n (0 : ℚ))).map
    fun q => Real.sqrt ((q : ℚ) : ℝ)

/-- Model-side record of one observable cell: x bins and the ensemble of
curves (one row per design point or posterior draw). -/
structure ModelRec where
  x : List ℚ
  Y : List (List ℚ)

/-- Experiment-side record of one observable cell: x bins, data points and
the named error sources (the values of the yerr mapping). -/
structure ExptRec where
  x : List ℚ
  y : List ℚ
  yerr : List (List ℚ)

/-- The experimental overlay drawn by _observables when the observable is
present in the experimental dataset. -/
structure Overlay where
  x : List ℚ
  y : List ℚ
  yerr : List ℝ

/-- Everything one {system, observable} cell of _observables produces. -/
structure CellOutput where
  curves : List (List ℚ)
  overlay : Option Overlay

/-- Embedding of one {system, observable} cell of _observables
(src/plots.py): the model ensemble curves are scaled and drawn first; the
experimental dataset lookup sits in a try/except KeyError block, so an
absent key skips only the overlay.  The KeyError-raising dataset lookup is
modelled by the Option-valued argument e. -/
noncomputable def observableCell (m : ModelRec) (scale : Option ℚ) (e : Option ExptRec) : CellOutput :=
  let Ys := match scale with
    | some s => m.Y.map fun row => row.map fun v => v * s
    | none => m.Y
  { curves := Ys
    overlay := match e with
      | none => none
      | some d =>
          let yerr := totalYerr d.x.length d.yerr
          let y2 := match scale with
            | some s => d.y.map fun v => v * s
            | none => d.y
          let yerr2 := match scale with
            | some s => yerr.map fun v => v * ((s : ℚ) : ℝ)
            | none => yerr
          some { x := d.x, y := y2, yerr := yerr2 } }

/-! ## Observable colors (obs_color_hsluv, lines 181-208) -/

/-- Sub-observable identifiers: none, a particle species string, or a flow
cumulant pair (n, k). -/
inductive SubObs
  | nosub
  | species (s : String)
  | flow (n k : ℤ)
  deriving DecidableEq, Repr

/-- The two Python exception kinds obs_color_hsluv can raise: the explicit
ValueError for an unknown observable name (carrying the name) and the
KeyError of a failed dict lookup on the sub-observable. -/
inductive ColorErr
  | valueError (obs : String)
  | keyError
  deriving DecidableEq, Repr

/-- Embedding of obs_color_hsluv (src/plots.py): a fixed HSLuv triple per
known observable (for dN_dy, mean_pT and vnk selected by a dict lookup on
the sub-observable, whose failure is a KeyError), and a ValueError naming
the observable for any unknown observable name. -/
def obs_color_hsluv (obs : String) (subobs : SubObs) : Except ColorErr (ℤ × ℤ × ℤ) :=
  if obs = "dNch_deta" ∨ obs = "pT_fluct" then Except.ok (250, 90, 55)
  else if obs = "dET_deta" then Except.ok (10, 65, 55)
  else if obs = "dN_dy" ∨ obs = "mean_pT" then
    match subobs with
    | SubObs.species s =>
        if s = "pion" then Except.ok (210, 85, 70)
        else if s = "kaon" then Except.ok (130, 88, 68)
        else if s = "proton" then Except.ok (30, 90, 62)
        else Except.error ColorErr.keyError
    | _ => Except.error ColorErr.keyError
  else if obs = "vnk" then
    match subobs with
    | SubObs.flow 2 2 => Except.ok (230, 90, 65)
    | SubObs.flow 2 4 => Except.ok (262, 80, 63)
    | SubObs.flow 3 2 => Except.ok (150, 90, 67)
    | SubObs.flow 4 2 => Except.ok (310, 70, 50)
    | _ => Except.error ColorErr.keyError
  else Except.error (ColorErr.valueError obs)

/-- Truth value recording that a color lookup ended in the ValueError for
an unknown observable (as opposed to succeeding or raising KeyError). -/
def isValueError : Except ColorErr (ℤ × ℤ × ℤ) → Bool
  | Except.error (ColorErr.valueError _) => true
  | _ => false

/-- The observable names obs_color_hsluv knows. -/
def knownObs : List String :=
  ["dNch_deta", "pT_fluct", "dET_deta", "dN_dy", "mean_pT", "vnk"]

/-! ## Monotone cubic smoothing (PchipInterpolator, used at lines 746-751
and 833-835)

The interpolant is scipy code, an external collaborator of the repository;
it is modelled here concretely as the shape-preserving piecewise cubic
Hermite interpolant with the PCHIP derivative rule, following the spec
(a monotonicity-respecting cubic interpolant over strictly increasing bin
centers). -/

/-- Width of interval k of the bin-center grid: x[k+1] - x[k]. -/
def spanAt (xs : List ℚ) (k : ℕ) : ℚ := xs.getD (k + 1) 0 - xs.getD k 0

/-- Secant slope of interval k: (y[k+1] - y[k]) / (x[k+1] - x[k]). -/
def slopeAt (xs ys : List ℚ) (k : ℕ) : ℚ :=
  (ys.getD (k + 1) 0 - ys.getD k 0) / spanAt xs k

/-- One-sided three-point endpoint derivative of the PCHIP rule, clamped to
zero on a sign disagreement with the adjacent secant slope and to three
times that slope when it would overshoot. -/
def edgeDeriv (h0 h1 m0 m1 : ℚ) : ℚ :=
  let d := ((2 * h0 + h1) * m0 - h0 * m1) / (h0 + h1)
  if d * m0 ≤ 0 then 0
  else if m0 * m1 ≤ 0 ∧ 3 * |m0| < |d| then 3 * m0
  else d

/-- Knot derivative of the PCHIP rule: zero at a local extremum (secant
slopes of opposite sign or either zero), else the weighted harmonic mean
of the two secant slopes; one-sided formulas at the two ends, and the
single secant slope when only two points are given. -/
def pchipDeriv (xs ys : List ℚ) (k : ℕ) : ℚ :=
  let n := xs.length
  if n ≤ 2 then slopeAt xs ys 0
  else if k = 0 then
    edgeDeriv (spanAt xs 0) (spanAt xs 1) (slopeAt xs ys 0) (slopeAt xs ys 1)
  else if k = n - 1 then
    edgeDeriv (spanAt xs (n - 2)) (spanAt xs (n - 3))
      (slopeAt xs ys (n - 2)) (slopeAt xs ys (n - 3))
  else
    let m0 := slopeAt xs ys (k - 1)
    let m1 := slopeAt xs ys k
    if m0 * m1 ≤ 0 then 0
    else
      let w1 := 2 * spanAt xs k + spanAt xs (k - 1)
      let w2 := spanAt xs k + 2 * spanAt xs (k - 1)
      (w1 + w2) / (w1 / m0 + w2 / m1)

/-- Number of grid points not exceeding t. -/
def countLE (xs : List ℚ) (t : ℚ) : ℕ :=
  (xs.filter fun x => decide (x ≤ t)).length

/-- Index of the cubic piece evaluated at t: the interval whose left knot
is the last grid point not exceeding t, clamped to the valid range. -/
def intervalIndex (xs : List ℚ) (t : ℚ) : ℕ :=
  min (countLE xs t - 1) (xs.length - 2)

/-- The cubic Hermite basis on the unit interval, taking the two endpoint
values and the two (span-scaled) endpoint derivatives. -/
def hermite01 (y0 y1 hd0 hd1 s : ℚ) : ℚ :=
  y0 * (2 * s ^ 3 - 3 * s ^ 2 + 1) + hd0 * (s ^ 3 - 2 * s ^ 2 + s)
    + y1 * (-2 * s ^ 3 + 3 * s ^ 2) + hd1 * (s ^ 3 - s ^ 2)

/-- Evaluation of the PCHIP interpolant at t: the cubic Hermite basis on
the selected interval, with the PCHIP knot derivatives. -/
def pchipEval (xs ys : List ℚ) (t : ℚ) : ℚ :=
  let j := intervalIndex xs t
  hermite01 (ys.getD j 0) (ys.getD (j + 1) 0)
    (spanAt xs j * pchipDeriv xs ys j) (spanAt xs j * pchipDeriv xs ys (j + 1))
    ((t - xs.getD j 0) / spanAt xs j)

/-! ## Helper lemmas -/

theorem FVal.notFinite_fadd_left {x y : FVal} (h : x.notFinite = true) :
    (FVal.fadd x y).notFinite = true := by
  cases x <;> cases y <;> simp_all [FVal.fadd, FVal.notFinite]

theorem FVal.notFinite_fadd_right {x y : FVal} (h : y.notFinite = true) :
    (FVal.fadd x y).notFinite = true := by
  cases x <;> cases y <;> simp_all [FVal.fadd, FVal.notFinite]

theorem FVal.notFinite_foldl_fadd (l : List FVal) (a : FVal) (h : a.notFinite = true) :
    (l.foldl FVal.fadd a).notFinite = true := by
  induction l generalizing a with
  | nil => simpa using h
  | cons b t ih => exact ih _ (FVal.notFinite_fadd_left h)

theorem FVal.notFinite_foldl_fadd_mem {l : List FVal} {x : FVal} (hx : x ∈ l)
    (h : x.notFinite = true) (a : FVal) : (l.foldl FVal.fadd a).notFinite = true := by
  induction l generalizing a with
  | nil => cases hx
  | cons b t ih =>
    rcases List.mem_cons.mp hx with rfl | hx2
    · exact FVal.notFinite_foldl_fadd t _ (FVal.notFinite_fadd_right h)
    · exact ih hx2 _

theorem FVal.notFinite_fsum {l : List FVal} {x : FVal} (hx : x ∈ l)
    (h : x.notFinite = true) : (FVal.fsum l).notFinite = true :=
  FVal.notFinite_foldl_fadd_mem hx h _

theorem FVal.notFinite_fsqrt {x : FVal} (h : x.notFinite = true) :
    x.fsqrt.notFinite = true := by
  cases x <;> simp_all [FVal.fsqrt, FVal.notFinite]

theorem FVal.notFinite_fdiv_fin {x : FVal} (c : ℚ) (h : x.notFinite = true) :
    (FVal.fdiv x (FVal.fin c)).notFinite = true := by
  cases x with
  | fin q => simp [FVal.notFinite] at h
  | inf => by_cases hc : c < 0 <;> simp [FVal.fdiv, hc, FVal.notFinite]
  | ninf => by_cases hc : c < 0 <;> simp [FVal.fdiv, hc, FVal.notFinite]
  | nan => simp [FVal.fdiv, FVal.notFinite]

theorem FVal.notFinite_fmean {l : List FVal} {x : FVal} (hx : x ∈ l)
    (h : x.notFinite = true) : (FVal.fmean l).notFinite = true :=
  FVal.notFinite_fdiv_fin _ (FVal.notFinite_fsum hx h)

theorem FVal.notFinite_fmul_fin_pos {c : ℚ} (hc : 0 < c) {x : FVal}
    (h : x.notFinite = true) : (FVal.fmul (FVal.fin c) x).notFinite = true := by
  cases x <;> simp_all [FVal.fmul, FVal.notFinite]

theorem FVal.notFinite_fsq {x : FVal} (h : x.notFinite = true) :
    x.fsq.notFinite = true := by
  cases x <;> simp_all [FVal.fsq, FVal.fmul, FVal.notFinite]

theorem FVal.notFinite_fsub_fin {x : FVal} (c : ℚ) (h : x.notFinite = true) :
    (FVal.fsub x (FVal.fin c)).notFinite = true :=
  FVal.notFinite_fadd_left h

theorem FVal.notFinite_fdiv_zero (a : ℚ) :
    (FVal.fdiv (FVal.fin a) (FVal.fin 0)).notFinite = true := by
  by_cases h1 : 0 < a
  · simp [FVal.fdiv, h1, FVal.notFinite]
  · by_cases h2 : a < 0 <;> simp [FVal.fdiv, h1, h2, FVal.notFinite]

theorem FVal.natSqrtGo_pos {n : ℕ} (hn : 0 < n) :
    ∀ k, 0 < k → 0 < FVal.natSqrtGo n k := by
  intro k
  induction k with
  | zero => intro h; cases h
  | succ m ih =>
    intro _
    by_cases hc : (m + 1) * (m + 1) ≤ n
    · simp [FVal.natSqrtGo, hc]
    · cases m with
      | zero => exact absurd (by simpa using hn) hc
      | succ m2 =>
        simp only [FVal.natSqrtGo, if_neg hc]
        exact ih (Nat.succ_pos m2)

theorem FVal.natSqrt_pos {n : ℕ} (hn : 0 < n) : 0 < FVal.natSqrt n :=
  FVal.natSqrtGo_pos hn n hn

theorem FVal.ratSqrt_pos {q : ℚ} (hq : 0 < q) : 0 < FVal.ratSqrt q := by
  have hnum : 0 < q.num := Rat.num_pos.mpr hq
  have h1 : 0 < FVal.natSqrt q.num.toNat := FVal.natSqrt_pos (by omega)
  have h2 : 0 < FVal.natSqrt q.den := FVal.natSqrt_pos q.den_pos
  unfold FVal.ratSqrt
  positivity

theorem FVal.foldl_fadd_fin_zero (l : List FVal) (h : ∀ x ∈ l, x = FVal.fin 0) :
    l.foldl FVal.fadd (FVal.fin 0) = FVal.fin 0 := by
  induction l with
  | nil => rfl
  | cons b t ih =>
    have hb := h b (List.mem_cons_self b t)
    subst hb
    have : FVal.fadd (FVal.fin 0) (FVal.fin 0) = FVal.fin 0 := by
      simp [FVal.fadd]
    rw [List.foldl_cons, this]
    exact ih fun x hx => h x (List.mem_cons_of_mem _ hx)

theorem FVal.fsum_all_zero {l : List FVal} (h : ∀ x ∈ l, x = FVal.fin 0) :
    FVal.fsum l = FVal.fin 0 :=
  FVal.foldl_fadd_fin_zero l h

theorem List.getD_map_of_lt {α β : Type} (f : α → β) (l : List α) (i : ℕ)
    (h : i < l.length) (d : β) (d0 : α) : (l.map f).getD i d = f (l.getD i d0) := by
  induction l generalizing i with
  | nil => cases h
  | cons a t ih =>
    cases i with
    | zero => rfl
    | succ k => exact ih k (by simpa using h)

theorem List.mem_zip_getD {α β : Type} (l1 : List α) (l2 : List β) (i : ℕ)
    (h1 : i < l1.length) (h2 : i < l2.length) (d1 : α) (d2 : β) :
    (l1.getD i d1, l2.getD i d2) ∈ l1.zip l2 := by
  induction l1 generalizing l2 i with
  | nil => cases h1
  | cons a t ih =>
    cases l2 with
    | nil => cases h2
    | cons b s =>
      cases i with
      | zero => exact List.mem_cons_self _ _
      | succ k =>
        exact List.mem_cons_of_mem _ (ih s k (by simpa using h1) (by simpa using h2))

theorem List.zip_self {α : Type} (l : List α) : l.zip l = l.map fun x => (x, x) := by
  induction l with
  | nil => rfl
  | cons a t ih => simpa using ih

theorem List.getD_mem_of_lt {α : Type} (l : List α) (i : ℕ) (h : i < l.length) (d : α) :
    l.getD i d ∈ l := by
  rw [List.getD_eq_getElem l d h]
  exact List.getElem_mem h

/-! ## C1: zero ground truth in surrogate validation -/

/-- C1, counterexample.  The claim states that a zero ground_truth entry
makes the Surrogate Validation Engine fail with a division-related
(NumericDegeneracy) error surfaced to the caller rather than silently
returning inf or NaN.  The code of validation_all performs the divisions
unconditionally (the embedded computation is a total function with no
error outcome), and at the concrete input with ground truth [[0], [2]] and
predicted mean [[1], [2]] it silently returns an infinite RMS percent
error. -/
theorem rms_zero_truth_counterexample :
    rmsPercentError [[0], [2]] [[1], [2]] = [FVal.inf] := by decide

/-- C1 (amended): whenever some ground_truth entry of channel j is exactly
zero, validation_all raises no error; the division Y_/Y is performed
anyway and the RMS percent error of channel j is silently non-finite
(an infinity or NaN). -/
theorem rms_zero_truth_silent_nonfinite
    (Y Ym : List (List ℚ)) (i j : ℕ)
    (hlen : Y.length = Ym.length)
    (hi : i < Y.length) (hj : j < ncols Y)
    (h0 : (Y.getD i []).getD j 0 = 0) :
    FVal.notFinite ((rmsPercentError Y Ym).getD j FVal.nan) = true := by
  have hjr : j < (List.range (ncols Y)).length := by simpa using hj
  have hmap : (rmsPercentError Y Ym).getD j FVal.nan
      = FVal.fmul (FVal.fin 100)
          (FVal.fsqrt (FVal.fmean ((Y.zip Ym).map fun r =>
            FVal.fsq (FVal.fsub
              (FVal.fdiv (FVal.fin (r.2.getD j 0)) (FVal.fin (r.1.getD j 0)))
              (FVal.fin 1))))) := by
    unfold rmsPercentError
    rw [List.getD_map_of_lt _ _ j hjr _ 0]
    rw [List.getD_eq_getElem _ 0 hjr, List.getElem_range]
  rw [hmap]
  apply FVal.notFinite_fmul_fin_pos (by norm_num)
  apply FVal.notFinite_fsqrt
  have hmem : (Y.getD i [], Ym.getD i []) ∈ Y.zip Ym :=
    List.mem_zip_getD Y Ym i hi (hlen ▸ hi) [] []
  have hmem2 := List.mem_map_of_mem
    (fun r : List ℚ × List ℚ =>
      FVal.fsq (FVal.fsub
        (FVal.fdiv (FVal.fin (r.2.getD j 0)) (FVal.fin (r.1.getD j 0)))
        (FVal.fin 1))) hmem
  apply FVal.notFinite_fmean hmem2
  show FVal.notFinite (FVal.fsq (FVal.fsub
    (FVal.fdiv (FVal.fin ((Ym.getD i []).getD j 0)) (FVal.fin ((Y.getD i []).getD j 0)))
    (FVal.fin 1))) = true
  rw [h0]
  exact FVal.notFinite_fsq (FVal.notFinite_fsub_fin _ (FVal.notFinite_fdiv_zero _))

/-- C1, witness for the amended theorem, at ground truth [[0], [2]] and
predicted mean [[1], [2]]. -/
theorem rms_zero_truth_silent_nonfinite_witness :
    FVal.notFinite ((rmsPercentError [[0], [2]] [[1], [2]]).getD 0 FVal.nan) = true :=
  rms_zero_truth_silent_nonfinite [[0], [2]] [[1], [2]] 0 0
    (by decide) (by decide) (by decide) (by decide)

/-! ## C5: an exact surrogate has zero residuals and zero RMS error -/

/-- C5, counterexample.  The claim quantifies over every pair of arrays
with predicted mean equal to ground truth and every elementwise-positive
predicted covariance, and asserts both outputs are identically zero.  At
ground truth = predicted mean = [[0]] with positive predicted variance
[[1]], the normalized residual is zero, but the RMS percent error is NaN
(the code computes 0/0), not zero. -/
theorem exact_surrogate_counterexample :
    normalizedResiduals [[0]] [[0]] [[1]] = [[FVal.fin 0]] ∧
    rmsPercentError [[0]] [[0]] ≠ [FVal.fin 0] := by
  constructor
  · norm_num [normalizedResiduals, FVal.fsub, FVal.fneg, FVal.fadd, FVal.fsqrt,
      FVal.fdiv, FVal.ratSqrt, FVal.natSqrt, FVal.natSqrtGo]
  · have h : rmsPercentError [[0]] [[0]] = [FVal.nan] := by decide
    rw [h]
    decide

/-- C5 (amended): for rectangular arrays with predicted mean equal
elementwise to the ground truth, every ground-truth entry nonzero, and
every predicted variance positive, the normalized residuals are
identically zero and the RMS percent error is identically zero. -/
theorem exact_surrogate_validation_zero
    (Y S2 : List (List ℚ))
    (hS : ∀ r ∈ S2, ∀ c ∈ r, 0 < c)
    (hY0 : ∀ r ∈ Y, ∀ c ∈ r, c ≠ 0)
    (hrect : ∀ r ∈ Y, r.length = ncols Y) :
    (∀ row ∈ normalizedResiduals Y Y S2, ∀ z ∈ row, z = FVal.fin 0) ∧
    (∀ v ∈ rmsPercentError Y Y, v = FVal.fin 0) := by
  constructor
  · intro row hrow z hz
    unfold normalizedResiduals at hrow
    obtain ⟨⟨⟨ym, y⟩, s⟩, hrr, rfl⟩ := List.mem_map.mp hrow
    obtain ⟨⟨⟨a, b⟩, c⟩, hxy, rfl⟩ := List.mem_map.mp hz
    have h1 := List.of_mem_zip hrr
    have hymy : ym = y := by
      have h2 := h1.1
      rw [List.zip_self] at h2
      obtain ⟨x, _, hxx⟩ := List.mem_map.mp h2
      injection hxx with e1 e2
      rw [← e1, ← e2]
    subst hymy
    have h3 := List.of_mem_zip hxy
    have hab : a = b := by
      have h4 := h3.1
      rw [List.zip_self] at h4
      obtain ⟨x, _, hxx⟩ := List.mem_map.mp h4
      injection hxx with e1 e2
      rw [← e1, ← e2]
    subst hab
    have hc : 0 < c := hS s h1.2 c h3.2
    have hrs : FVal.ratSqrt c ≠ 0 := ne_of_gt (FVal.ratSqrt_pos hc)
    simp [FVal.fsub, FVal.fneg, FVal.fadd, FVal.fsqrt, FVal.fdiv,
      not_lt.mpr hc.le, hrs]
  · intro v hv
    unfold rmsPercentError at hv
    obtain ⟨j, hj, rfl⟩ := List.mem_map.mp hv
    have hjlt : j < ncols Y := List.mem_range.mp hj
    have hterm : ∀ t ∈ (Y.zip Y).map (fun r : List ℚ × List ℚ =>
        FVal.fsq (FVal.fsub
          (FVal.fdiv (FVal.fin (r.2.getD j 0)) (FVal.fin (r.1.getD j 0)))
          (FVal.fin 1))), t = FVal.fin 0 := by
      intro t ht
      obtain ⟨⟨r1, r2⟩, hr, rfl⟩ := List.mem_map.mp ht
      have hr12 : r1 = r2 := by
        rw [List.zip_self] at hr
        obtain ⟨x, _, hxx⟩ := List.mem_map.mp hr
        injection hxx with e1 e2
        rw [← e1, ← e2]
      subst hr12
      have hrY : r1 ∈ Y := by
        rw [List.zip_self] at hr
        obtain ⟨x, hx, hxx⟩ := List.mem_map.mp hr
        injection hxx with e1 e2
        rw [← e1]
        exact hx
      have hjr1 : j < r1.length := by rw [hrect r1 hrY]; exact hjlt
      have ha : r1.getD j 0 ≠ 0 :=
        hY0 r1 hrY _ (List.getD_mem_of_lt r1 j hjr1 0)
      show FVal.fsq (FVal.fsub
        (FVal.fdiv (FVal.fin (r1.getD j 0)) (FVal.fin (r1.getD j 0)))
        (FVal.fin 1)) = FVal.fin 0
      have hdiv : FVal.fdiv (FVal.fin (r1.getD j 0)) (FVal.fin (r1.getD j 0))
          = FVal.fin 1 := by
        revert ha
        generalize r1.getD j 0 = a
        intro ha
        simp [FVal.fdiv, ha, div_self ha]
      rw [hdiv]
      simp [FVal.fsub, FVal.fneg, FVal.fadd, FVal.fsq, FVal.fmul]
    have hsum := FVal.fsum_all_zero hterm
    have hY_ne : Y.length ≠ 0 := by
      cases Y with
      | nil => simp [ncols] at hjlt
      | cons r t => simp
    have h0Y : ((Y.length : ℕ) : ℚ) ≠ 0 := Nat.cast_ne_zero.mpr hY_ne
    simp only [FVal.fmean, hsum]
    simp [FVal.fdiv, FVal.fsqrt, FVal.fmul, FVal.ratSqrt, FVal.natSqrt,
      FVal.natSqrtGo, List.length_map, List.length_zip, min_self, h0Y]

/-- C5, witness for the amended theorem, at ground truth = predicted mean
= [[1], [2]] and predicted variances [[1], [4]]: the first RMS percent
error is zero. -/
theorem exact_surrogate_validation_zero_witness :
    (rmsPercentError [[1], [2]] [[1], [2]]).getD 0 FVal.nan = FVal.fin 0 :=
  (exact_surrogate_validation_zero [[1], [2]] [[1], [4]]
      (by decide) (by decide) (by decide)).2 _
    (List.getD_mem_of_lt _ 0 (by simp [rmsPercentError, ncols]) _)

/-! ## C2: the PCA arrow sign flip -/

/-- C2, counterexample.  The claim states that a direction vector all of
whose coordinates are non-positive (each coordinate at most 0) is negated
before display.  The code tests np.all(p < 0), a strict inequality: the
vector [0, -1] has all coordinates at most 0 yet is left unchanged (its
negation is [0, 1]). -/
theorem pca_arrow_canon_counterexample :
    (∀ x ∈ ([0, -1] : List ℚ), x ≤ 0) ∧
    pcaArrowCanon [0, -1] = [0, -1] ∧ pcaArrowCanon [0, -1] ≠ [0, 1] := by
  refine ⟨by decide, by decide, by decide⟩

/-- C2 (amended): a principal direction vector is negated before display
exactly when all of its coordinates are strictly negative; a vector with
at least one coordinate that is zero or positive (in particular, with a
positive coordinate) is left unchanged. -/
theorem pca_arrow_canon_strictly_negative (p : List ℚ) :
    ((∀ x ∈ p, x < 0) → pcaArrowCanon p = p.map fun x => -x) ∧
    ((∃ x ∈ p, 0 ≤ x) → pcaArrowCanon p = p) := by
  constructor
  · intro h
    unfold pcaArrowCanon
    rw [if_pos]
    rw [List.all_eq_true]
    intro x hx
    exact decide_eq_true (h x hx)
  · intro h
    obtain ⟨x, hx, hx0⟩ := h
    unfold pcaArrowCanon
    rw [if_neg]
    intro hall
    rw [List.all_eq_true] at hall
    exact absurd (of_decide_eq_true (hall x hx)) (not_lt.mpr hx0)

/-- C2, witness for the amended theorem: [-1, -2] is negated, [0, -1] is
unchanged. -/
theorem pca_arrow_canon_strictly_negative_witness :
    pcaArrowCanon [-1, -2] = [1, 2] ∧ pcaArrowCanon [0, -1] = [0, -1] := by
  constructor
  · have h := (pca_arrow_canon_strictly_negative [-1, -2]).1 (by decide)
    rw [h]
    decide
  · exact (pca_arrow_canon_strictly_negative [0, -1]).2 ⟨0, by decide, by decide⟩

/-! ## C3: regime representatives are upper credible bounds, not means -/

/-- C3: for every group of the Regime Classifier's hard assignment (any
sample matrix and any label assignment), the representative parameter that
_region_bulk feeds into the zetas display curve is
mcmc.credible_interval(s)[1], the upper bound of the default 90% credible
interval of the group's per-parameter marginal — the empirical quantile at
fraction 1 - (1 - 0.9)/2 — and not the group mean: at the concrete group
with marginal [0, 0, 0, 10] the credible bound is 17/2 while the mean is
5/2. -/
theorem region_bulk_representative_upper_credible_bound :
    (∀ samples labels n k, regionBulkParam samples labels n k =
      quantileLinear (columnQ (groupRows samples labels n) k) (1 - (1 - 9/10) / 2)) ∧
    regionBulkParam [[0], [0], [0], [10]] [0, 0, 0, 0] 0 0 = 17/2 ∧
    meanQ (columnQ (groupRows [[0], [0], [0], [10]] [0, 0, 0, 0] 0) 0) = 5/2 := by
  refine ⟨fun samples labels n k => rfl, ?_, ?_⟩
  · norm_num [regionBulkParam, credible_interval, quantileLinear, sortQ,
      insertSorted, columnQ, groupRows,
      show Int.toNat 2 = 2 from rfl,
      show (⌊(57:ℚ)/20⌋ : ℤ) = 2 from by norm_num [Int.floor_eq_iff]]
  · norm_num [meanQ, columnQ, groupRows]

/-! ## C4: the credible-interval display precision policy -/

/-- C4: for every sample array (and level), format_ci selects display
precision 3 when |median| < 0.2 and the lower-side uncertainty (median
minus the lower credible bound) is below 0.02, else 2 when |median| < 1,
else 1, and renders the median and both the lower-side and upper-side
uncertainties at that same single precision. -/
theorem format_ci_precision_policy (samples : List ℚ) (ci : ℚ) :
    (format_ci samples ci).precision =
      (if |medianQ samples| < 1/5 ∧
          medianQ samples - (credible_interval samples ci).1 < 1/50 then 3
       else if |medianQ samples| < 1 then 2 else 1) ∧
    (format_ci samples ci).median =
      roundTo (format_ci samples ci).precision (medianQ samples) ∧
    (format_ci samples ci).lowErr =
      roundTo (format_ci samples ci).precision
        (medianQ samples - (credible_interval samples ci).1) ∧
    (format_ci samples ci).highErr =
      roundTo (format_ci samples ci).precision
        ((credible_interval samples ci).2 - medianQ samples) :=
  ⟨rfl, rfl, rfl, rfl⟩

/-! ## C9: a missing experimental observable only skips the overlay -/

/-- C9: for every ObservableKey present in the model dataset but absent
from the experimental dataset (the lookup result is none, modelling the
caught KeyError of the try/except in _observables), the cell computation
still succeeds: the overlay is skipped and the model curves are exactly
the curves produced for any other lookup result — the embedded
computation is a total function, so no error propagates. -/
theorem observable_cell_missing_expt (m : ModelRec) (scale : Option ℚ) :
    (observableCell m scale none).overlay = none ∧
    ∀ e, (observableCell m scale e).curves = (observableCell m scale none).curves :=
  ⟨rfl, fun e => by cases e <;> rfl⟩

/-! ## C7: the total error band is the quadrature sum of the sources -/

theorem List.getD_zipWith_add (a b : List ℚ) (i : ℕ) (ha : i < a.length)
    (hb : i < b.length) :
    (List.zipWith (· + ·) a b).getD i 0 = a.getD i 0 + b.getD i 0 := by
  induction a generalizing b i with
  | nil => cases ha
  | cons x t ih =>
    cases b with
    | nil => cases hb
    | cons y s =>
      cases i with
      | zero => rfl
      | succ k => exact ih s k (by simpa using ha) (by simpa using hb)

theorem totalYerr_foldl_length (sources : List (List ℚ)) (n : ℕ)
    (hlen : ∀ e ∈ sources, e.length = n) (acc : List ℚ) (hacc : acc.length = n) :
    (sources.foldl
      (fun acc e => List.zipWith (· + ·) acc (e.map fun v => v ^ 2)) acc).length = n := by
  induction sources generalizing acc with
  | nil => simpa using hacc
  | cons e es ih =>
    rw [List.foldl_cons]
    refine ih (fun x hx => hlen x (List.mem_cons_of_mem _ hx)) _ ?_
    simp [List.length_zipWith, hacc, hlen e (List.mem_cons_self e es)]

theorem totalYerr_foldl_getD (sources : List (List ℚ)) (n : ℕ)
    (hlen : ∀ e ∈ sources, e.length = n) (acc : List ℚ) (hacc : acc.length = n)
    (i : ℕ) (hi : i < n) :
    (sources.foldl
        (fun acc e => List.zipWith (· + ·) acc (e.map fun v => v ^ 2)) acc).getD i 0
      = acc.getD i 0 + (sources.map fun e => (e.getD i 0) ^ 2).sum := by
  induction sources generalizing acc with
  | nil => simp
  | cons e es ih =>
    rw [List.foldl_cons]
    have he : e.length = n := hlen e (List.mem_cons_self e es)
    have hzl : (List.zipWith (· + ·) acc (e.map fun v => v ^ 2)).length = n := by
      simp [List.length_zipWith, hacc, he]
    rw [ih (fun x hx => hlen x (List.mem_cons_of_mem _ hx)) _ hzl]
    have hz : (List.zipWith (· + ·) acc (e.map fun v => v ^ 2)).getD i 0
        = acc.getD i 0 + (e.getD i 0) ^ 2 := by
      rw [List.getD_zipWith_add _ _ i (by omega) (by simp [he]; omega)]
      rw [List.getD_map_of_lt _ _ i (by omega) 0 0]
    rw [hz]
    simp [add_assoc]

/-- C7: whenever a single error band is built from the per-source error
arrays of a yerr mapping (all aligned with an x axis of length n), the
total error at each bin equals the quadrature sum — the square root of the
sum of the squares — of the per-source errors at that bin. -/
theorem total_yerr_quadrature (n : ℕ) (sources : List (List ℚ))
    (hlen : ∀ e ∈ sources, e.length = n) (i : ℕ) (hi : i < n) :
    (totalYerr n sources).getD i 0 =
      Real.sqrt ((sources.map fun e => ((e.getD i 0 : ℚ) : ℝ) ^ 2).sum) := by
  unfold totalYerr
  have hfl : (sources.foldl
      (fun acc e => List.zipWith (· + ·) acc (e.map fun v => v ^ 2))
      (List.replicate n (0 : ℚ))).length = n :=
    totalYerr_foldl_length sources n hlen _ (List.length_replicate n 0)
  rw [List.getD_map_of_lt _ _ i (by omega) 0 0]
  rw [totalYerr_foldl_getD sources n hlen _ (List.length_replicate n 0) i hi]
  have hrep : (List.replicate n (0 : ℚ)).getD i 0 = 0 := by
    rw [List.getD_eq_getElem _ _ (by simpa using hi)]
    exact List.getElem_replicate _ _
  rw [hrep, zero_add]
  congr 1
  rw [Rat.cast_list_sum, List.map_map]
  congr 1
  apply List.map_congr_left
  intro e _
  simp [Function.comp]

/-- C7, witness: two error sources [3, 0] and [4, 0] on a two-bin axis
give a total error of sqrt(3^2 + 4^2) at the first bin. -/
theorem total_yerr_quadrature_witness :
    (totalYerr 2 [[3, 0], [4, 0]]).getD 0 0 =
      Real.sqrt ((([[3, 0], [4, 0]] : List (List ℚ)).map
        fun e => ((e.getD 0 0 : ℚ) : ℝ) ^ 2).sum) :=
  total_yerr_quadrature 2 [[3, 0], [4, 0]] (by decide) 0 (by decide)

/-! ## C6: residual-band quantile annotations are analytic -/

/-- C6: for each target quantile q in {25%, 50%, 75%, 90%}, the sigma
value validation_all (and validation_example) attaches to its residual
band equals sqrt(2)*erfinv(2q - 1) — the exact analytic inverse of
quantile_at_sigma(s) = 0.5*(1 + erf(s/sqrt2)) — provided erfinv is an odd
right inverse of erf (the defining properties of the scipy inverse error
function); no empirical approximation is involved. -/
theorem validation_sigma_ticks_analytic (erf erfinv : ℝ → ℝ)
    (hodd : ∀ x, erfinv (-x) = -erfinv x)
    (hinv : ∀ x, erf (erfinv x) = x) :
    validationSigmaTicks erfinv =
      [(-(sigmaOfQuantile erfinv (90/100)), 10/100),
       (sigmaOfQuantile erfinv (25/100), 25/100),
       (sigmaOfQuantile erfinv (50/100), 50/100),
       (sigmaOfQuantile erfinv (75/100), 75/100),
       (sigmaOfQuantile erfinv (90/100), 90/100)] ∧
    (∀ s q, (s, q) ∈ validationSigmaTicks erfinv → q ≠ 10/100 →
      quantile_at_sigma erf s = q) := by
  have he0 : erfinv 0 = 0 := by
    have h := hodd 0
    rw [neg_zero] at h
    linarith
  have hsqrt2 : Real.sqrt 2 ≠ 0 := ne_of_gt (Real.sqrt_pos.mpr (by norm_num))
  have hcancel : ∀ y : ℝ, Real.sqrt 2 * y / Real.sqrt 2 = y := by
    intro y
    field_simp
  have e25 : Real.sqrt 2 * erfinv (2 * (25/100) - 1)
      = -(Real.sqrt 2 * erfinv (2 * (75/100) - 1)) := by
    rw [show (2 * (25/100 : ℝ) - 1) = -(2 * (75/100) - 1) by norm_num, hodd]
    ring
  have e50 : Real.sqrt 2 * erfinv (2 * (50/100) - 1) = 0 := by
    rw [show (2 * (50/100 : ℝ) - 1) = 0 by norm_num, he0]
    ring
  constructor
  · unfold validationSigmaTicks sigmaOfQuantile
    rw [e25, e50]
  · intro s q hsq hq10
    unfold validationSigmaTicks at hsq
    simp only [List.mem_cons, List.not_mem_nil, or_false] at hsq
    rcases hsq with h | h | h | h | h
    · injection h with h1 h2
      exact absurd h2 hq10
    · injection h with h1 h2
      subst h1
      subst h2
      unfold quantile_at_sigma
      rw [neg_div, hcancel, ← hodd, hinv]
      norm_num
    · injection h with h1 h2
      subst h1
      subst h2
      unfold quantile_at_sigma
      rw [zero_div, ← he0, hinv]
      norm_num
    · injection h with h1 h2
      subst h1
      subst h2
      unfold quantile_at_sigma
      rw [hcancel, hinv]
      norm_num
    · injection h with h1 h2
      subst h1
      subst h2
      unfold quantile_at_sigma
      rw [hcancel, hinv]
      norm_num

/-- C6, witness: the identity function is an odd right inverse of itself,
so the theorem applies to it; the tick list then takes the stated
analytic form. -/
theorem validation_sigma_ticks_analytic_witness :
    validationSigmaTicks (fun x => x) =
      [(-(sigmaOfQuantile (fun x => x) (90/100)), 10/100),
       (sigmaOfQuantile (fun x => x) (25/100), 25/100),
       (sigmaOfQuantile (fun x => x) (50/100), 50/100),
       (sigmaOfQuantile (fun x => x) (75/100), 75/100),
       (sigmaOfQuantile (fun x => x) (90/100), 90/100)] :=
  (validation_sigma_ticks_analytic (fun x => x) (fun x => x)
    (fun _ => rfl) (fun _ => rfl)).1

/-! ## C10: the unknown-observable ValueError of obs_color_hsluv -/

theorem isValueError_obs_color_known (obs : String) (subobs : SubObs)
    (hk : obs ∈ knownObs) : isValueError (obs_color_hsluv obs subobs) = false := by
  simp only [knownObs, List.mem_cons, List.not_mem_nil, or_false] at hk
  rcases hk with rfl | rfl | rfl | rfl | rfl | rfl <;>
    cases subobs <;>
    simp only [obs_color_hsluv] <;>
    split_ifs <;>
    first
      | rfl
      | (split <;> rfl)
      | simp_all

theorem isValueError_obs_color_unknown (obs : String) (subobs : SubObs)
    (hk : obs ∉ knownObs) : isValueError (obs_color_hsluv obs subobs) = true := by
  simp only [knownObs, List.mem_cons, List.not_mem_nil, or_false, not_or] at hk
  obtain ⟨n1, n2, n3, n4, n5, n6⟩ := hk
  simp [obs_color_hsluv, isValueError, n1, n2, n3, n4, n5, n6]

/-- C10: obs_color_hsluv ends in the ValueError reporting an unknown
observable exactly when the observable name is outside {dNch_deta,
pT_fluct, dET_deta, dN_dy, mean_pT, vnk} — for a known observable an
invalid sub-observable raises KeyError, never ValueError — and each known
observable paired with a valid sub-observable deterministically gets its
fixed HSLuv triple. -/
theorem obs_color_valueError_iff :
    (∀ obs subobs, isValueError (obs_color_hsluv obs subobs) = true ↔ obs ∉ knownObs) ∧
    obs_color_hsluv "dNch_deta" SubObs.nosub = Except.ok (250, 90, 55) ∧
    obs_color_hsluv "pT_fluct" SubObs.nosub = Except.ok (250, 90, 55) ∧
    obs_color_hsluv "dET_deta" SubObs.nosub = Except.ok (10, 65, 55) ∧
    obs_color_hsluv "dN_dy" (SubObs.species "pion") = Except.ok (210, 85, 70) ∧
    obs_color_hsluv "dN_dy" (SubObs.species "kaon") = Except.ok (130, 88, 68) ∧
    obs_color_hsluv "dN_dy" (SubObs.species "proton") = Except.ok (30, 90, 62) ∧
    obs_color_hsluv "mean_pT" (SubObs.species "pion") = Except.ok (210, 85, 70) ∧
    obs_color_hsluv "mean_pT" (SubObs.species "kaon") = Except.ok (130, 88, 68) ∧
    obs_color_hsluv "mean_pT" (SubObs.species "proton") = Except.ok (30, 90, 62) ∧
    obs_color_hsluv "vnk" (SubObs.flow 2 2) = Except.ok (230, 90, 65) ∧
    obs_color_hsluv "vnk" (SubObs.flow 2 4) = Except.ok (262, 80, 63) ∧
    obs_color_hsluv "vnk" (SubObs.flow 3 2) = Except.ok (150, 90, 67) ∧
    obs_color_hsluv "vnk" (SubObs.flow 4 2) = Except.ok (310, 70, 50) := by
  refine ⟨?_, rfl, rfl, rfl, rfl, rfl, rfl, rfl, rfl, rfl, rfl, rfl, rfl, rfl⟩
  intro obs subobs
  by_cases hk : obs ∈ knownObs
  · simp [isValueError_obs_color_known obs subobs hk, hk]
  · simp [isValueError_obs_color_unknown obs subobs hk, hk]

/-! ## C8: the PCHIP interpolant passes through every input point -/

theorem hermite01_at_zero (y0 y1 hd0 hd1 : ℚ) : hermite01 y0 y1 hd0 hd1 0 = y0 := by
  unfold hermite01
  ring

theorem hermite01_at_one (y0 y1 hd0 hd1 : ℚ) : hermite01 y0 y1 hd0 hd1 1 = y1 := by
  unfold hermite01
  ring

theorem countLE_getD_chain (xs : List ℚ) (hs : List.Chain' (· < ·) xs) (k : ℕ)
    (hk : k < xs.length) : countLE xs (xs.getD k 0) = k + 1 := by
  induction xs generalizing k with
  | nil => cases hk
  | cons a t ih =>
    have hpw : ∀ x ∈ t, a < x :=
      (List.pairwise_cons.mp (List.chain'_iff_pairwise.mp hs)).1
    cases k with
    | zero =>
      unfold countLE
      rw [show (a :: t).getD 0 0 = a from rfl]
      rw [List.filter_cons_of_pos (by simp)]
      rw [List.filter_eq_nil_iff.mpr ?hnil]
      case hnil =>
        intro x hx
        simp only [decide_eq_true_eq, not_le]
        exact hpw x hx
      rfl
    | succ k2 =>
      have hk2 : k2 < t.length := by simpa using hk
      have hv : (a :: t).getD (k2 + 1) 0 = t.getD k2 0 := rfl
      unfold countLE
      rw [hv]
      rw [List.filter_cons]
      have hale : a ≤ t.getD k2 0 :=
        le_of_lt (hpw (t.getD k2 0) (List.getD_mem_of_lt t k2 hk2 0))
      have ihr := ih hs.tail k2 hk2
      unfold countLE at ihr
      have hale2 : a ≤ t[k2]?.getD 0 := by
        rw [← List.getD_eq_getElem?_getD]
        exact hale
      simp [hale2]
      simpa using ihr

theorem intervalIndex_getD (xs : List ℚ) (hs : List.Chain' (· < ·) xs) (k : ℕ)
    (hk : k < xs.length) :
    intervalIndex xs (xs.getD k 0) = min k (xs.length - 2) := by
  unfold intervalIndex
  rw [countLE_getD_chain xs hs k hk]
  simp

theorem chain_getD_lt (xs : List ℚ) (hs : List.Chain' (· < ·) xs) (i : ℕ)
    (h : i + 1 < xs.length) : xs.getD i 0 < xs.getD (i + 1) 0 := by
  have hp := List.chain'_iff_pairwise.mp hs
  rw [List.getD_eq_getElem _ _ (by omega), List.getD_eq_getElem _ _ h]
  exact List.pairwise_iff_getElem.mp hp i (i + 1) (by omega) h (by omega)

/-- C8: the PCHIP interpolant evaluates to the original bin height at
every original bin center — for every strictly increasing grid of at least
two bin centers, the smoothed curve passes through all input points
(independently of the shape-preserving derivative choice). -/
theorem pchip_interpolates (xs ys : List ℚ) (h2 : 2 ≤ xs.length)
    (hmono : List.Chain' (· < ·) xs) (k : ℕ) (hk : k < xs.length) :
    pchipEval xs ys (xs.getD k 0) = ys.getD k 0 := by
  unfold pchipEval
  rw [intervalIndex_getD xs hmono k hk]
  by_cases hcase : k ≤ xs.length - 2
  · rw [min_eq_left hcase]
    show hermite01 (ys.getD k 0) (ys.getD (k + 1) 0)
      (spanAt xs k * pchipDeriv xs ys k) (spanAt xs k * pchipDeriv xs ys (k + 1))
      ((xs.getD k 0 - xs.getD k 0) / spanAt xs k) = ys.getD k 0
    rw [sub_self, zero_div, hermite01_at_zero]
  · have hklast : k = xs.length - 1 := by omega
    have hmin : min k (xs.length - 2) = xs.length - 2 := min_eq_right (by omega)
    rw [hmin]
    have hsucc : xs.length - 2 + 1 = k := by omega
    have hlt : xs.getD (xs.length - 2) 0 < xs.getD (xs.length - 2 + 1) 0 :=
      chain_getD_lt xs hmono (xs.length - 2) (by omega)
    have hspan : spanAt xs (xs.length - 2) ≠ 0 := by
      unfold spanAt
      exact ne_of_gt (sub_pos.mpr hlt)
    have hs1 : (xs.getD k 0 - xs.getD (xs.length - 2) 0) / spanAt xs (xs.length - 2) = 1 := by
      unfold spanAt
      unfold spanAt at hspan
      rw [← hsucc, div_eq_one_iff_eq hspan]
    show hermite01 (ys.getD (xs.length - 2) 0) (ys.getD (xs.length - 2 + 1) 0)
      (spanAt xs (xs.length - 2) * pchipDeriv xs ys (xs.length - 2))
      (spanAt xs (xs.length - 2) * pchipDeriv xs ys (xs.length - 2 + 1))
      ((xs.getD k 0 - xs.getD (xs.length - 2) 0) / spanAt xs (xs.length - 2)) = ys.getD k 0
    rw [hs1, hermite01_at_one, hsucc]

/-- C8, witness: on the grid [0, 1, 2] with heights [0, 3, 1], the
interpolant takes the value 3 at the middle bin center 1. -/
theorem pchip_interpolates_witness : pchipEval [0, 1, 2] [0, 3, 1] 1 = 3 := by
  have h := pchip_interpolates [0, 1, 2] [0, 3, 1] (by norm_num)
    (by simp [List.chain'_cons]) 1 (by norm_num)
  simpa using h


end HicParamEst
